import Mathlib

/-!
Verification of the Secret Santa assignment generator and draw endpoint
(`server.js`).  The JavaScript functions `makeAssignments`, `validatePair`,
`fixExclusions`, `validateAssignments`, `shuffle` and the `/api/draw` branch
of `handleRequest` are shallowly embedded below.  JavaScript objects used as
string-keyed dictionaries are modelled as association lists with in-place
update (`setKey`), matching property write/read semantics; `Math.random`
is modelled by an arbitrary function supplying the value that
`Math.floor(Math.random() * (i + 1))` reduces to modulo `i + 1`.
-/

set_option maxHeartbeats 1000000

namespace SecretSanta

/-! ## Association-list model of JavaScript objects -/

/-- Reading `obj[k]`: first binding wins (bindings are kept unique by
`setKey`, which updates in place). -/
def lookup {α : Type} : List (String × α) → String → Option α
  | [], _ => none
  | (k, v) :: rest, x => if x = k then some v else lookup rest x

/-- Writing `obj[k] = v`: updates the existing binding in place, otherwise
appends a fresh binding (JavaScript insertion order). -/
def setKey {α : Type} : List (String × α) → String → α → List (String × α)
  | [], k, v => [(k, v)]
  | (k', v') :: rest, k, v =>
    if k' = k then (k, v) :: rest else (k', v') :: setKey rest k v

/-- `delete obj[k]` / a read-equivalent model of writing `undefined`. -/
def delKey {α : Type} : List (String × α) → String → List (String × α)
  | [], _ => []
  | (k', v') :: rest, k => if k' = k then rest else (k', v') :: delKey rest k

/-- A giver→recipient dictionary (the `mapping` object of the source). -/
abbrev Mapping := List (String × String)

/-- The `exclusions` object: `excl g` models `exclusions[g] || []`. -/
abbrev ExclMap := String → List String

/-- Writing a value that may be `undefined`: `obj[k] = undefined` is
read-equivalent to deleting the key. -/
def setKeyO (m : Mapping) (k : String) : Option String → Mapping
  | some v => setKey m k v
  | none => delKey m k

/-! ## The generator core (`server.js` lines 361-444) -/

/-- `validatePair` (lines 389-393): `giver === recv` is rejected, then
`recv` must avoid the banned set `{giver} ∪ exclusions[giver]`. -/
def validatePair (giver recv : String) (excl : ExclMap) : Bool :=
  if giver = recv then false
  else !(decide (recv = giver ∨ recv ∈ excl giver))

/-- The `isBanned` closure of `fixExclusions` (lines 396-399). -/
def isBanned (excl : ExclMap) (g rv : String) : Bool :=
  decide (rv = g ∨ rv ∈ excl g)

/-- `isBanned` applied to a possibly-`undefined` recipient:
`banned.has(undefined)` is false. -/
def isBannedO (excl : ExclMap) (g : String) : Option String → Bool
  | some rv => isBanned excl g rv
  | none => false

/-- `[arr[i], arr[j]] = [arr[j], arr[i]]`: both cells are read before either
is written. -/
def listSwap (a : List String) (i j : Nat) : List String :=
  (a.set i (a.getD j "")).set j (a.getD i "")

/-- One iteration (index `i`) of the fixed-point-elimination loop of
`makeAssignments` (lines 364-369): a self-pairing at `i` is swapped with the
next position, wrapping to position 0 from the last position. -/
def fixStep (names : List String) (s : List String) (i : Nat) : List String :=
  if s.getD i "" = names.getD i "" then
    listSwap s i (if i = names.length - 1 then 0 else i + 1)
  else s

/-- The whole fixed-point-elimination loop, `i = 0 .. names.length - 1`. -/
def fixAll (names s : List String) : List String :=
  (List.range names.length).foldl (fixStep names) s

/-- Fisher-Yates loop of `shuffle` (lines 438-444), `i` descending from
`arr.length - 1` to `1`; `r i % (i + 1)` models
`Math.floor(Math.random() * (i + 1))`. -/
def shuffleGo (r : Nat → Nat) : Nat → List String → List String
  | 0, arr => arr
  | i + 1, arr => shuffleGo r i (listSwap arr (i + 1) (r (i + 1) % (i + 2)))

/-- `shuffle(arr)` with an explicit random source. -/
def shuffle (r : Nat → Nat) (arr : List String) : List String :=
  shuffleGo r (arr.length - 1) arr

/-- The mapping-construction loop of `makeAssignments` (lines 370-380):
each `(giver, recv)` pair is written into the mapping and checked with
`validatePair`; the first failing pair aborts (`ok = false`). -/
def buildMapping (excl : ExclMap) : List (String × String) → Mapping → Option Mapping
  | [], m => some m
  | (g, rv) :: ps, m =>
    if validatePair g rv excl then buildMapping excl ps (setKey m g rv) else none

/-- Inner loop of `fixExclusions` (lines 406-417): scan indices `j`,
skipping `j = i`, for the first eligible counterpart swap; on success the
two bindings are exchanged. -/
def fixInnerGo (excl : ExclMap) (names : List String) (i : Nat) (giver recv : String)
    (map : Mapping) : List Nat → Option Mapping
  | [] => none
  | j :: js =>
    if i = j then fixInnerGo excl names i giver recv map js
    else
      let other := names.getD j ""
      let otherRecv := lookup map other
      if other = giver ∨ otherRecv = some giver then
        fixInnerGo excl names i giver recv map js
      else
        if !(isBannedO excl giver otherRecv) && !(isBanned excl other recv)
            && !(decide (otherRecv = some giver)) && !(decide (other = recv)) then
          some (setKey (setKeyO map giver otherRecv) other recv)
        else fixInnerGo excl names i giver recv map js

/-- Outer loop of `fixExclusions` (lines 401-420): a giver whose current
recipient is banned or himself triggers the inner swap search; a failed
search returns `false` (here `none`). A giver with no binding reads
`undefined`, which is neither banned nor equal to the giver, so is skipped. -/
def fixOuterGo (excl : ExclMap) (names : List String) (map : Mapping) :
    List Nat → Option Mapping
  | [] => some map
  | i :: is =>
    let giver := names.getD i ""
    match lookup map giver with
    | none => fixOuterGo excl names map is
    | some rv =>
      if isBanned excl giver rv || decide (giver = rv) then
        match fixInnerGo excl names i giver rv map (List.range names.length) with
        | none => none
        | some map2 => fixOuterGo excl names map2 is
      else fixOuterGo excl names map is

/-- `fixExclusions(map, names, exclusions)` (lines 395-422): the repaired
mapping when the function returns `true`, `none` when it returns `false`.
The final line `names.every((name) => map[name] && map[name] !== name)`
reads truthiness: an absent or empty-string recipient fails it. -/
def fixExclusions (map : Mapping) (names : List String) (excl : ExclMap) : Option Mapping :=
  match fixOuterGo excl names map (List.range names.length) with
  | none => none
  | some m =>
    if names.all (fun nm =>
        match lookup m nm with
        | some v => !(decide (v = "")) && !(decide (v = nm))
        | none => false) then some m
    else none

/-- Loop body of `validateAssignments` (lines 424-436), carrying the
`seenRecipients` set as a duplicate-free list.  A giver's pair survives the
loop iteration when none of the source's early `return false` conditions
fires: `!recv` (missing binding is the `none` branch, empty string the
first conjunct), `!names.includes(recv)`, `giver === recv`,
`banned.has(recv)`, `seenRecipients.has(recv)`. -/
def vaGo (map : Mapping) (names : List String) (excl : ExclMap) :
    List String → List String → Option (List String)
  | [], seen => some seen
  | g :: gs, seen =>
    match lookup map g with
    | none => none
    | some rv =>
      if rv ≠ "" ∧ rv ∈ names ∧ g ≠ rv ∧ isBanned excl g rv = false ∧ rv ∉ seen then
        vaGo map names excl gs (seen ++ [rv])
      else none

/-- `validateAssignments(mapping, names, exclusions)` (lines 424-436). -/
def validateAssignments (map : Mapping) (names : List String) (excl : ExclMap) : Bool :=
  match vaGo map names excl names [] with
  | none => false
  | some seen => seen.length == names.length

/-- The candidate recipient list of one attempt: shuffled copy of `names`,
then the fixed-point-elimination pass. -/
def candidate (names : List String) (ra : Nat → Nat) : List String :=
  fixAll names (shuffle ra names)

/-- One attempt of the `makeAssignments` loop, instrumented with a flag
recording whether the repair pass `fixExclusions` was invoked.  When some
pair fails `validatePair` the source runs `continue` (`ok = false`), so the
repair pass is reached only with every pair validated. -/
def attemptOnceI (names : List String) (excl : ExclMap) (ra : Nat → Nat) :
    Option Mapping × Bool :=
  match buildMapping excl (names.zip (candidate names ra)) [] with
  | none => (none, false)
  | some m =>
    match fixExclusions m names excl with
    | none => (none, true)
    | some m2 => (if validateAssignments m2 names excl then some m2 else none, true)

/-- One attempt of the `makeAssignments` loop (lines 362-385). -/
def attemptOnce (names : List String) (excl : ExclMap) (ra : Nat → Nat) : Option Mapping :=
  (attemptOnceI names excl ra).1

/-- The retry loop of `makeAssignments`: `attempt` counts up, `fuel` is the
remaining budget; `r attempt` is the random source consumed by the shuffle
of that attempt. -/
def masGo (names : List String) (excl : ExclMap) (r : Nat → Nat → Nat) :
    Nat → Nat → Option Mapping
  | _, 0 => none
  | attempt, fuel + 1 =>
    match attemptOnce names excl (r attempt) with
    | some m => some m
    | none => masGo names excl r (attempt + 1) fuel

/-- `makeAssignments(names, exclusions)` (lines 361-387): up to 1000
attempts; `none` models the `throw` on line 386. -/
def makeAssignments (names : List String) (excl : ExclMap) (r : Nat → Nat → Nat) :
    Option Mapping :=
  masGo names excl r 0 1000

/-- One attempt of the comparison algorithm with the repair pass removed:
the candidate mapping goes straight to `validateAssignments`. -/
def attemptOnceNR (names : List String) (excl : ExclMap) (ra : Nat → Nat) : Option Mapping :=
  match buildMapping excl (names.zip (candidate names ra)) [] with
  | none => none
  | some m => if validateAssignments m names excl then some m else none

/-- The retry loop of the repair-free comparison algorithm. -/
def masGoNR (names : List String) (excl : ExclMap) (r : Nat → Nat → Nat) :
    Nat → Nat → Option Mapping
  | _, 0 => none
  | attempt, fuel + 1 =>
    match attemptOnceNR names excl (r attempt) with
    | some m => some m
    | none => masGoNR names excl r (attempt + 1) fuel

/-- `makeAssignments` with the repair pass removed (comparison algorithm
for the refinement claim). -/
def makeAssignmentsNoRepair (names : List String) (excl : ExclMap) (r : Nat → Nat → Nat) :
    Option Mapping :=
  masGoNR names excl r 0 1000

/-! ## Server state and the `/api/draw` branch (`server.js` lines 73-131) -/

/-- An entry pushed onto `state.history` (lines 107-111). -/
structure HistEntry where
  giver : String
  recipient : String
  revealedAt : String
  deriving DecidableEq

/-- The persisted server state (`buildFreshState`, lines 194-205). -/
structure SantaState where
  participants : List String
  exclusions : ExclMap
  assignments : Mapping
  revealed : List (String × Bool)
  history : List HistEntry
  createdAt : String

/-- `String.prototype.trim()` of `body.giver.trim()` (line 87), modelled by
dropping leading and trailing whitespace characters. -/
def jsTrim (s : String) : String :=
  ⟨((s.data.dropWhile Char.isWhitespace).reverse.dropWhile Char.isWhitespace).reverse⟩

/-- Outcome of a `/api/draw` request after body parsing. -/
inductive DrawResult where
  | success (giver recipient : String)
  | error (status : Nat)
  deriving DecidableEq

/-- The `POST /api/draw` branch of `handleRequest` (lines 87-131), after the
JSON body has been read: argument `rawGiver` is `body.giver` (a string),
`saveOk` tells whether `saveState()` succeeds, `now` is the current
timestamp.  On a save failure the reveal flag is reset and the history
entry popped (lines 113-121). -/
def drawHandler (st : SantaState) (rawGiver : String) (saveOk : Bool) (now : String) :
    SantaState × DrawResult :=
  let giver := jsTrim rawGiver
  if giver = "" then (st, .error 400)
  else if giver ∉ st.participants then (st, .error 404)
  else if lookup st.revealed giver = some true then (st, .error 409)
  else
    match lookup st.assignments giver with
    | none => (st, .error 500)
    | some recipient =>
      if recipient = "" then (st, .error 500)
      else
        let st1 : SantaState :=
          { st with
            revealed := setKey st.revealed giver true
            history := st.history ++ [⟨giver, recipient, now⟩] }
        if saveOk then (st1, .success giver recipient)
        else
          ({ st1 with
             revealed := setKey st1.revealed giver false
             history := st1.history.dropLast }, .error 500)

/-! ## Basic lemmas on the object model -/

theorem lookup_setKey_self {α : Type} (m : List (String × α)) (k : String) (v : α) :
    lookup (setKey m k v) k = some v := by
  induction m with
  | nil => simp [setKey, lookup]
  | cons p rest ih =>
    obtain ⟨k', v'⟩ := p
    by_cases h : k' = k
    · subst h; simp [setKey, lookup]
    · simp [setKey, lookup, h, Ne.symm h, ih]

theorem lookup_setKey_ne {α : Type} (m : List (String × α)) (k x : String) (v : α)
    (h : x ≠ k) : lookup (setKey m k v) x = lookup m x := by
  induction m with
  | nil => simp [setKey, lookup, h]
  | cons p rest ih =>
    obtain ⟨k', v'⟩ := p
    by_cases hk : k' = k
    · subst hk; simp [setKey, lookup, h]
    · simp only [setKey, if_neg hk, lookup]
      by_cases hx : x = k'
      · simp [hx]
      · simp [hx, ih]

theorem setKey_of_lookup_eq {α : Type} (m : List (String × α)) (k : String) (v : α)
    (h : lookup m k = some v) : setKey m k v = m := by
  induction m with
  | nil => simp [lookup] at h
  | cons p rest ih =>
    obtain ⟨k', v'⟩ := p
    by_cases hk : k = k'
    · subst hk
      have h' : v' = v := by simpa [lookup] using h
      simp [setKey, h']
    · simp only [lookup, if_neg hk] at h
      simp only [setKey, if_neg (fun hh : k' = k => hk hh.symm)]
      rw [ih h]

theorem setKey_setKey {α : Type} (m : List (String × α)) (k : String) (a b : α) :
    setKey (setKey m k a) k b = setKey m k b := by
  induction m with
  | nil => simp [setKey]
  | cons p rest ih =>
    obtain ⟨k', v'⟩ := p
    by_cases hk : k' = k
    · subst hk; simp [setKey]
    · simp [setKey, hk, ih]

theorem lookup_some_mem {α : Type} {m : List (String × α)} {k : String} {v : α}
    (h : lookup m k = some v) : (k, v) ∈ m := by
  induction m with
  | nil => simp [lookup] at h
  | cons p rest ih =>
    obtain ⟨k', v'⟩ := p
    by_cases hk : k = k'
    · subst hk
      have h' : v' = v := by simpa [lookup] using h
      simp [h']
    · simp only [lookup, if_neg hk] at h
      simp [ih h]

theorem setKey_append_of_lookup_none {α : Type} (m : List (String × α)) (k : String) (v : α)
    (h : lookup m k = none) : setKey m k v = m ++ [(k, v)] := by
  induction m with
  | nil => simp [setKey]
  | cons p rest ih =>
    obtain ⟨k', v'⟩ := p
    by_cases hk : k = k'
    · simp [lookup, hk] at h
    · simp only [lookup, if_neg hk] at h
      simp only [setKey, if_neg (fun hh : k' = k => hk hh.symm)]
      rw [ih h]
      simp

/-! ## Characterization of `validateAssignments` -/

/-- The recipient the validator reads for giver `g` (default `""` stands for
a missing binding, which the validator rejects anyway). -/
def recvOf (map : Mapping) (g : String) : String :=
  (lookup map g).getD ""

/-- All per-pair checks of `validateAssignments` for giver `g`. -/
def pairOK (map : Mapping) (names : List String) (excl : ExclMap) (g : String) : Prop :=
  ∃ rv, lookup map g = some rv ∧ rv ≠ "" ∧ rv ∈ names ∧ g ≠ rv ∧ ¬(rv = g ∨ rv ∈ excl g)

theorem vaGo_eq_some {map : Mapping} {names : List String} {excl : ExclMap} :
    ∀ {gs seen out : List String}, vaGo map names excl gs seen = some out →
      out = seen ++ gs.map (recvOf map) := by
  intro gs
  induction gs with
  | nil => intro seen out h; simpa [vaGo] using h.symm
  | cons g rest ih =>
    intro seen out h
    simp only [vaGo] at h
    rcases hg : lookup map g with _ | rv <;> simp only [hg] at h
    · exact Option.noConfusion h
    · split at h
      · have := ih h
        simp [this, recvOf, hg]
      · exact Option.noConfusion h

theorem vaGo_isSome_iff {map : Mapping} {names : List String} {excl : ExclMap} :
    ∀ {gs seen : List String},
      (vaGo map names excl gs seen).isSome = true ↔
        ((∀ g ∈ gs, pairOK map names excl g) ∧ (gs.map (recvOf map)).Nodup ∧
          ∀ x ∈ gs.map (recvOf map), x ∉ seen) := by
  intro gs
  induction gs with
  | nil => intro seen; simp [vaGo]
  | cons g rest ih =>
    intro seen
    simp only [vaGo]
    rcases hg : lookup map g with _ | rv <;> simp only [hg]
    · simp only [Option.isSome_none, Bool.false_eq_true, false_iff]
      intro ⟨hp, _⟩
      obtain ⟨rv, hrv, _⟩ := hp g (by simp)
      rw [hg] at hrv; exact absurd hrv (by simp)
    · have hrec : recvOf map g = rv := by simp [recvOf, hg]
      split
      next hcond =>
        obtain ⟨h1, h2, h3, h4, h5⟩ := hcond
        have hpg : pairOK map names excl g :=
          ⟨rv, hg, h1, h2, h3, by simpa [isBanned] using h4⟩
        rw [ih]
        have hiff : (∀ x ∈ rest.map (recvOf map), x ∉ seen ++ [rv]) ↔
            ((∀ x ∈ rest.map (recvOf map), x ∉ seen) ∧ rv ∉ rest.map (recvOf map)) := by
          constructor
          · intro h
            refine ⟨fun x hx hxs => h x hx (by simp [hxs]), fun hm => h rv hm (by simp)⟩
          · intro ⟨hA, hB⟩ x hx
            simp only [List.mem_append, List.mem_singleton]
            rintro (hxs | hxr)
            · exact hA x hx hxs
            · exact hB (hxr ▸ hx)
        rw [hiff]
        simp only [List.map_cons, List.nodup_cons, List.forall_mem_cons, hrec]
        constructor
        · rintro ⟨hA, hB, hC, hD⟩
          exact ⟨⟨hpg, hA⟩, ⟨hD, hB⟩, ⟨h5, hC⟩⟩
        · rintro ⟨⟨_, hA⟩, ⟨hD, hB⟩, ⟨_, hC⟩⟩
          exact ⟨hA, hB, hC, hD⟩
      next hcond =>
        simp only [Option.isSome_none, Bool.false_eq_true, false_iff]
        intro ⟨hp, hnd, hseen⟩
        obtain ⟨rv', hrv', hne, hmem, hself, hban⟩ := hp g (by simp)
        rw [hg] at hrv'; cases hrv'
        refine hcond ⟨hne, hmem, hself, by simpa [isBanned] using hban, ?_⟩
        exact fun hs => hseen rv (by simp [hrec]) hs

theorem validateAssignments_iff {map : Mapping} {names : List String} {excl : ExclMap} :
    validateAssignments map names excl = true ↔
      ((∀ g ∈ names, pairOK map names excl g) ∧ (names.map (recvOf map)).Nodup) := by
  unfold validateAssignments
  rcases hv : vaGo map names excl names [] with _ | out
  · simp only [hv, Bool.false_eq_true, false_iff]
    intro ⟨hp, hnd⟩
    have : (vaGo map names excl names []).isSome = true := by
      rw [vaGo_isSome_iff]
      exact ⟨hp, hnd, by simp⟩
    rw [hv] at this; simp at this
  · have hout : out = names.map (recvOf map) := by simpa using vaGo_eq_some hv
    have hlen : out.length = names.length := by simp [hout]
    simp only [hv, hlen, beq_self_eq_true, true_iff]
    have : (vaGo map names excl names []).isSome = true := by simp [hv]
    rw [vaGo_isSome_iff] at this
    exact ⟨this.1, this.2.1⟩

/-! ## Structure of the retry loop -/

theorem attemptOnce_eq_some {names : List String} {excl : ExclMap} {ra : Nat → Nat}
    {m : Mapping} (h : attemptOnce names excl ra = some m) :
    validateAssignments m names excl = true := by
  unfold attemptOnce attemptOnceI at h
  rcases hb : buildMapping excl (names.zip (candidate names ra)) [] with _ | m1 <;>
    simp only [hb] at h
  · exact Option.noConfusion h
  · rcases hf : fixExclusions m1 names excl with _ | m2 <;> simp only [hf] at h
    · exact Option.noConfusion h
    · by_cases hv : validateAssignments m2 names excl = true
      · simp only [if_pos hv] at h
        cases h
        exact hv
      · simp only [if_neg hv] at h
        exact Option.noConfusion h

theorem masGo_eq_some {names : List String} {excl : ExclMap} {r : Nat → Nat → Nat}
    {m : Mapping} :
    ∀ {fuel attempt : Nat}, masGo names excl r attempt fuel = some m →
      ∃ b, attemptOnce names excl (r b) = some m := by
  intro fuel
  induction fuel with
  | zero => intro attempt h; exact Option.noConfusion h
  | succ f ih =>
    intro attempt h
    simp only [masGo] at h
    rcases ha : attemptOnce names excl (r attempt) with _ | m1 <;> simp only [ha] at h
    · exact ih h
    · cases h
      exact ⟨attempt, ha⟩

theorem masGo_eq_none_iff {names : List String} {excl : ExclMap} {r : Nat → Nat → Nat} :
    ∀ {fuel attempt : Nat}, masGo names excl r attempt fuel = none ↔
      ∀ b, attempt ≤ b → b < attempt + fuel → attemptOnce names excl (r b) = none := by
  intro fuel
  induction fuel with
  | zero =>
    intro attempt
    constructor
    · intro _ b hb1 hb2
      omega
    · intro _
      rfl
  | succ f ih =>
    intro attempt
    simp only [masGo]
    rcases ha : attemptOnce names excl (r attempt) with _ | m1 <;> simp only [ha]
    · rw [ih]
      constructor
      · intro h b hb1 hb2
        rcases Nat.eq_or_lt_of_le hb1 with hb | hb
        · rw [← hb]; exact ha
        · exact h b hb (by omega)
      · intro h b hb1 hb2
        exact h b (by omega) (by omega)
    · constructor
      · intro h
        exact absurd h (by simp)
      · intro h
        have := h attempt (Nat.le_refl _) (by omega)
        rw [ha] at this
        exact Option.noConfusion this

theorem makeAssignments_eq_some {names : List String} {excl : ExclMap}
    {r : Nat → Nat → Nat} {m : Mapping} (h : makeAssignments names excl r = some m) :
    validateAssignments m names excl = true := by
  obtain ⟨b, hb⟩ := masGo_eq_some h
  exact attemptOnce_eq_some hb

/-- Claim C5: the generator always terminates (it is a total function of a
bounded loop): the attempt budget is the fixed constant 1000 ≥ 1000, and
the generator fails (models the `Infeasible` throw) exactly when all 1000
attempts — each one construction plus repair round on the random values of
that attempt — fail to produce a valid mapping. -/
theorem makeAssignments_budget (names : List String) (excl : ExclMap)
    (r : Nat → Nat → Nat) :
    (makeAssignments names excl r = none ↔
      ∀ a, a < 1000 → attemptOnce names excl (r a) = none) ∧ 1000 ≤ 1000 := by
  refine ⟨?_, Nat.le_refl _⟩
  unfold makeAssignments
  rw [masGo_eq_none_iff]
  constructor
  · intro h a ha; exact h a (Nat.zero_le _) (by omega)
  · intro h b _ hb; exact h b (by omega)

/-- The roster hard-coded in `server.js` lines 11-18. -/
def PARTICIPANTS : List String :=
  ["Alice", "Bob", "Charlie", "Danielle", "Erin", "Frank"]

/-- A hand-constructed cyclic shift of the six-person roster. -/
def cyclicShift6 : Mapping :=
  [("Alice", "Bob"), ("Bob", "Charlie"), ("Charlie", "Danielle"),
   ("Danielle", "Erin"), ("Erin", "Frank"), ("Frank", "Alice")]

/-- Claim C7: `validateAssignments` accepts the cyclic shift of the 6-person
roster with no exclusions, and rejects every mapping in which some
participant is paired with himself. -/
theorem validateAssignments_cyclic_and_self :
    validateAssignments cyclicShift6 PARTICIPANTS (fun _ => []) = true ∧
    ∀ (m : Mapping) (names : List String) (excl : ExclMap) (p : String),
      p ∈ names → lookup m p = some p → validateAssignments m names excl = false := by
  constructor
  · decide
  · intro m names excl p hp hlook
    by_contra hne
    have hva : validateAssignments m names excl = true := by
      cases hv : validateAssignments m names excl
      · exact absurd hv hne
      · rfl
    obtain ⟨hpair, _⟩ := validateAssignments_iff.mp hva
    obtain ⟨rv, hrv, _, _, hself, _⟩ := hpair p hp
    rw [hlook] at hrv
    cases hrv
    exact hself rfl

/-- Witness for claim C7: the theorem applied to the roster with Alice
forced to keep her own name. -/
theorem validateAssignments_cyclic_and_self_witness :
    validateAssignments
      [("Alice", "Alice"), ("Bob", "Charlie"), ("Charlie", "Danielle"),
       ("Danielle", "Erin"), ("Erin", "Frank"), ("Frank", "Bob")]
      PARTICIPANTS (fun _ => []) = false :=
  validateAssignments_cyclic_and_self.2 _ PARTICIPANTS (fun _ => []) "Alice"
    (by decide) (by decide)

/-! ## The draw endpoint -/

/-- Claim C8: a successful `POST /api/draw` changes only the giver's
revealed flag and appends one history entry; the assignments,
participants, exclusions and `createdAt` fields are untouched (and the
reveal can only succeed when the save succeeded). -/
theorem drawHandler_success_frame (st st' : SantaState) (raw : String) (saveOk : Bool)
    (now : String) (res : DrawResult) (g rcp : String)
    (h : drawHandler st raw saveOk now = (st', res))
    (hres : res = DrawResult.success g rcp) :
    st'.assignments = st.assignments ∧ st'.participants = st.participants ∧
    st'.exclusions = st.exclusions ∧ st'.createdAt = st.createdAt ∧
    st'.revealed = setKey st.revealed g true ∧
    st'.history = st.history ++ [⟨g, rcp, now⟩] ∧ saveOk = true := by
  subst hres
  unfold drawHandler at h
  by_cases hA : jsTrim raw = ""
  · simp [hA] at h
  by_cases hB : jsTrim raw ∈ st.participants
  · by_cases hC : lookup st.revealed (jsTrim raw) = some true
    · simp [hA, hB, hC] at h
    · rcases hD : lookup st.assignments (jsTrim raw) with _ | recipient
      · simp [hA, hB, hC, hD] at h
      · by_cases hE : recipient = ""
        · simp [hA, hB, hC, hD, hE] at h
        · by_cases hF : saveOk = true
          · simp only [hA, hB, hC, hD, hE, hF, not_true_eq_false, not_false_eq_true,
              if_neg, if_pos, if_false, if_true, ite_true, ite_false, reduceIte,
              Prod.mk.injEq, DrawResult.success.injEq] at h
            obtain ⟨h1, hg, hr⟩ := h
            subst hg; subst hr; subst h1
            exact ⟨rfl, rfl, rfl, rfl, rfl, rfl, hF⟩
          · simp [hA, hB, hC, hD, hE, hF] at h
  · simp [hA, hB] at h

/-- Witness for claim C8 at a concrete two-person state. -/
theorem drawHandler_success_frame_witness :
    (drawHandler
        ⟨["A", "B"], fun _ => [], [("A", "B"), ("B", "A")],
          [("A", false), ("B", false)], [], "t0"⟩
        "A" true "t1").1.assignments = [("A", "B"), ("B", "A")] ∧
    (drawHandler
        ⟨["A", "B"], fun _ => [], [("A", "B"), ("B", "A")],
          [("A", false), ("B", false)], [], "t0"⟩
        "A" true "t1").1.history = [] ++ [⟨"A", "B", "t1"⟩] := by
  have h := drawHandler_success_frame
    ⟨["A", "B"], fun _ => [], [("A", "B"), ("B", "A")],
      [("A", false), ("B", false)], [], "t0"⟩
    (drawHandler
        ⟨["A", "B"], fun _ => [], [("A", "B"), ("B", "A")],
          [("A", false), ("B", false)], [], "t0"⟩
        "A" true "t1").1
    "A" true "t1"
    (drawHandler
        ⟨["A", "B"], fun _ => [], [("A", "B"), ("B", "A")],
          [("A", false), ("B", false)], [], "t0"⟩
        "A" true "t1").2
    "A" "B" rfl (by decide)
  exact ⟨h.1, h.2.2.2.2.2.1⟩

/-- Claim C10: when persisting the draw fails, the handler restores the
reveal flag, pops the history entry and reports an error, so the state is
exactly the pre-draw state.  The hypothesis states the invariant
(established by `buildFreshState`/`normalizeState`) that every participant
has a revealed flag. -/
theorem drawHandler_saveFail_atomic (st : SantaState) (raw : String) (now : String)
    (hwf : ∀ p ∈ st.participants, (lookup st.revealed p).isSome = true) :
    (drawHandler st raw false now).1 = st ∧
    ∀ g rcp, (drawHandler st raw false now).2 ≠ DrawResult.success g rcp := by
  unfold drawHandler
  by_cases hA : jsTrim raw = ""
  · simp [hA]
  by_cases hB : jsTrim raw ∈ st.participants
  · by_cases hC : lookup st.revealed (jsTrim raw) = some true
    · simp [hA, hB, hC]
    · rcases hD : lookup st.assignments (jsTrim raw) with _ | recipient
      · simp [hA, hB, hC, hD]
      · by_cases hE : recipient = ""
        · simp [hA, hB, hC, hD, hE]
        · have hsome := hwf _ hB
          have hfalse : lookup st.revealed (jsTrim raw) = some false := by
            rcases hl : lookup st.revealed (jsTrim raw) with _ | b
            · rw [hl] at hsome; exact absurd hsome (by simp)
            · cases b
              · rfl
              · exact absurd hl hC
          have hrev : setKey (setKey st.revealed (jsTrim raw) true) (jsTrim raw) false
              = st.revealed := by
            rw [setKey_setKey]
            exact setKey_of_lookup_eq _ _ _ hfalse
          have hhist : (st.history ++ [(⟨jsTrim raw, recipient, now⟩ : HistEntry)]).dropLast
              = st.history := by
            simp
          simp [hA, hB, hC, hD, hE, hrev, hhist]
  · simp [hA, hB]

/-- Witness for claim C10 at a concrete two-person state. -/
theorem drawHandler_saveFail_atomic_witness :
    (drawHandler
        ⟨["A", "B"], fun _ => [], [("A", "B"), ("B", "A")],
          [("A", false), ("B", false)], [], "t0"⟩
        "A" false "t1").1 =
      ⟨["A", "B"], fun _ => [], [("A", "B"), ("B", "A")],
        [("A", false), ("B", false)], [], "t0"⟩ :=
  (drawHandler_saveFail_atomic
    ⟨["A", "B"], fun _ => [], [("A", "B"), ("B", "A")],
      [("A", false), ("B", false)], [], "t0"⟩
    "A" "t1" (by decide)).1

/-! ## Attempt-level facts -/

theorem buildMapping_isSome_iff {excl : ExclMap} :
    ∀ {ps : List (String × String)} {acc : Mapping},
      (buildMapping excl ps acc).isSome = true ↔
        ∀ p ∈ ps, validatePair p.1 p.2 excl = true := by
  intro ps
  induction ps with
  | nil => intro acc; simp [buildMapping]
  | cons p rest ih =>
    intro acc
    obtain ⟨g, rv⟩ := p
    simp only [buildMapping]
    by_cases hv : validatePair g rv excl = true
    · rw [if_pos hv, ih]
      simp [hv]
    · rw [if_neg hv]
      simp only [Option.isSome_none, Bool.false_eq_true, false_iff]
      intro hall
      exact hv (hall (g, rv) (by simp))

/-- Every participant is given a recipient that passes `validatePair`
whenever the construction loop finishes with `ok = true`. -/
theorem buildMapping_lookup_valid {excl : ExclMap} :
    ∀ {ps : List (String × String)} {acc m : Mapping},
      buildMapping excl ps acc = some m →
      (∀ k v, lookup acc k = some v → validatePair k v excl = true) →
      ∀ k v, lookup m k = some v → validatePair k v excl = true := by
  intro ps
  induction ps with
  | nil =>
    intro acc m h hacc
    simp only [buildMapping, Option.some.injEq] at h
    exact h ▸ hacc
  | cons p rest ih =>
    intro acc m h hacc
    obtain ⟨g, rv⟩ := p
    simp only [buildMapping] at h
    by_cases hv : validatePair g rv excl = true
    · rw [if_pos hv] at h
      refine ih h ?_
      intro k v hk
      by_cases hkg : k = g
      · subst hkg
        rw [lookup_setKey_self] at hk
        cases hk
        exact hv
      · rw [lookup_setKey_ne _ _ _ _ hkg] at hk
        exact hacc k v hk
    · rw [if_neg hv] at h
      exact Option.noConfusion h

theorem buildMapping_lookup_isSome {excl : ExclMap} :
    ∀ {ps : List (String × String)} {acc m : Mapping},
      buildMapping excl ps acc = some m →
      ∀ g, g ∈ ps.map Prod.fst ∨ (lookup acc g).isSome = true →
        (lookup m g).isSome = true := by
  intro ps
  induction ps with
  | nil =>
    intro acc m h g hg
    simp only [buildMapping, Option.some.injEq] at h
    rcases hg with hg | hg
    · simp at hg
    · exact h ▸ hg
  | cons p rest ih =>
    intro acc m h g hg
    obtain ⟨g0, rv⟩ := p
    simp only [buildMapping] at h
    by_cases hv : validatePair g0 rv excl = true
    · rw [if_pos hv] at h
      refine ih h g ?_
      by_cases hgg : g = g0
      · subst hgg
        right
        rw [lookup_setKey_self]
        rfl
      · rcases hg with hg | hg
        · simp only [List.map_cons, List.mem_cons] at hg
          rcases hg with hg | hg
          · exact absurd hg hgg
          · exact Or.inl hg
        · right
          rw [lookup_setKey_ne _ _ _ _ hgg]
          exact hg
    · rw [if_neg hv] at h
      exact Option.noConfusion h

/-- The roster of two participants who exclude each other. -/
def exclAB : ExclMap :=
  fun n => if n = "A" then ["B"] else if n = "B" then ["A"] else []

theorem candidate_AB (ra : Nat → Nat) : candidate ["A", "B"] ra = ["B", "A"] := by
  have hs : shuffle ra ["A", "B"] = ["A", "B"] ∨ shuffle ra ["A", "B"] = ["B", "A"] := by
    rcases Nat.mod_two_eq_zero_or_one (ra 1) with h | h
    · right
      simp [shuffle, shuffleGo, listSwap, h]
    · left
      simp [shuffle, shuffleGo, listSwap, h]
  rcases hs with h | h <;>
    simp [candidate, h, fixAll, fixStep, listSwap, List.range_succ]

theorem attemptOnce_AB_none (ra : Nat → Nat) :
    attemptOnce ["A", "B"] exclAB ra = none := by
  rw [attemptOnce, attemptOnceI, candidate_AB]
  decide

/-- Claim C4: with the roster `[A, B]` where each excludes the other, every
single attempt is rejected and the generator exhausts its budget and fails,
whatever the random source does. -/
theorem makeAssignments_mutual_exclusion_fails :
    (∀ ra : Nat → Nat, attemptOnce ["A", "B"] exclAB ra = none) ∧
    ∀ r : Nat → Nat → Nat, makeAssignments ["A", "B"] exclAB r = none := by
  refine ⟨attemptOnce_AB_none, ?_⟩
  intro r
  unfold makeAssignments
  rw [masGo_eq_none_iff]
  intro b _ _
  exact attemptOnce_AB_none (r b)

/-- Claim C2 counterexample: on the mutually-excluding two-person roster the
candidate pairing contains the pairing `A → B`, which fails `validatePair`,
and the attempt ends with the repair pass never invoked (instrumentation
flag `false`), refuting "repair is attempted before the attempt is
abandoned". -/
theorem attempt_discarded_without_repair :
    attemptOnceI ["A", "B"] exclAB (fun _ => 0) = (none, false) ∧
    ("A", "B") ∈ ["A", "B"].zip (candidate ["A", "B"] (fun _ => 0)) ∧
    validatePair "A" "B" exclAB = false := by
  refine ⟨?_, ?_, by decide⟩
  · rw [attemptOnceI, candidate_AB]
    decide
  · rw [candidate_AB]
    decide

/-- Claim C2 (amended): the repair pass is invoked in an attempt exactly
when every pairing of that attempt's candidate passes `validatePair`; a
candidate with any violating pairing is discarded immediately, without
repair. -/
theorem repair_invoked_iff_all_pairs_valid (names : List String) (excl : ExclMap)
    (ra : Nat → Nat) :
    (attemptOnceI names excl ra).2 = true ↔
      ∀ p ∈ names.zip (candidate names ra), validatePair p.1 p.2 excl = true := by
  unfold attemptOnceI
  rcases hb : buildMapping excl (names.zip (candidate names ra)) [] with _ | m
  · simp only [Bool.false_eq_true, false_iff]
    intro hall
    have : (buildMapping excl (names.zip (candidate names ra)) []).isSome = true :=
      buildMapping_isSome_iff.mpr hall
    rw [hb] at this
    exact absurd this (by simp)
  · have hall := buildMapping_isSome_iff.mp (by rw [hb]; rfl)
    have hgoal : ∀ (a b : String), (a, b) ∈ names.zip (candidate names ra) →
        validatePair a b excl = true := fun a b hab => hall (a, b) hab
    rcases hf : fixExclusions m names excl with _ | m2 <;> (simp [hf]; exact hgoal)

/-! ## Degenerate rosters -/

/-- Claim C3 counterexample: the code has no `InvalidRoster` check at all —
on the empty roster (fewer than 2 entries) `makeAssignments` does not fail:
the first attempt returns the empty mapping. -/
theorem makeAssignments_empty_roster_succeeds :
    makeAssignments [] (fun _ => []) (fun _ _ => 0) = some [] := by
  decide

/-- Claim C3 (amended): there is no dedicated `InvalidRoster` failure; a
roster with duplicates, or with exactly one entry, makes every attempt fail
so the generator throws its single (budget-exhausted) error for every
random source, while the empty roster trivially succeeds. -/
theorem makeAssignments_degenerate_roster_fails (names : List String) (excl : ExclMap)
    (r : Nat → Nat → Nat) (h : ¬names.Nodup ∨ names.length = 1) :
    makeAssignments names excl r = none := by
  rcases h with h | h
  · rcases hm : makeAssignments names excl r with _ | m
    · rfl
    · have hv := makeAssignments_eq_some hm
      have hnd := (validateAssignments_iff.mp hv).2
      exact absurd (List.Nodup.of_map _ hnd) h
  · obtain ⟨x, hx⟩ := List.length_eq_one.mp h
    subst hx
    unfold makeAssignments
    rw [masGo_eq_none_iff]
    intro b _ _
    have hc : candidate [x] (r b) = [x] := by
      simp [candidate, shuffle, shuffleGo, fixAll, fixStep, listSwap, List.range_succ]
    rw [attemptOnce, attemptOnceI, hc]
    simp [buildMapping, validatePair]

/-- Witness for the amended claim C3, at the duplicate roster `[A, A]`. -/
theorem makeAssignments_degenerate_roster_fails_witness :
    (¬(["A", "A"].Nodup) ∨ ["A", "A"].length = 1) ∧
    makeAssignments ["A", "A"] (fun _ => []) (fun _ _ => 0) = none :=
  ⟨Or.inl (by decide),
    makeAssignments_degenerate_roster_fails ["A", "A"] (fun _ => []) (fun _ _ => 0)
      (Or.inl (by decide))⟩

/-! ## Validity of every returned mapping -/

/-- Claim C1: any mapping the generator returns is a valid derangement of
the roster: the roster is duplicate-free (each participant is a giver
exactly once), every participant receives a recipient from the roster that
is neither himself nor one of his exclusions, and the recipient list is a
permutation of the roster (each participant is a recipient exactly once). -/
theorem makeAssignments_valid (names : List String) (excl : ExclMap)
    (r : Nat → Nat → Nat) (m : Mapping) (h : makeAssignments names excl r = some m) :
    names.Nodup ∧
    (∀ p ∈ names, ∃ q, lookup m p = some q ∧ q ∈ names ∧ q ≠ p ∧ q ∉ excl p) ∧
    (names.map (recvOf m)).Perm names := by
  have hv := makeAssignments_eq_some h
  obtain ⟨hpair, hnd⟩ := validateAssignments_iff.mp hv
  refine ⟨List.Nodup.of_map _ hnd, ?_, ?_⟩
  · intro p hp
    obtain ⟨rv, hrv, _, hmem, hself, hban⟩ := hpair p hp
    push_neg at hban
    exact ⟨rv, hrv, hmem, hban.1, hban.2⟩
  · have hsub : (names.map (recvOf m)) ⊆ names := by
      intro x hx
      obtain ⟨p, hp, hpx⟩ := List.mem_map.mp hx
      obtain ⟨rv, hrv, _, hmem, _, _⟩ := hpair p hp
      have : recvOf m p = rv := by simp [recvOf, hrv]
      rw [← hpx, this]
      exact hmem
    have hlen : names.length ≤ (names.map (recvOf m)).length := by simp
    exact (List.subperm_of_subset hnd hsub).perm_of_length_le hlen

/-- Witness for claim C1 at the roster `[A, B, C]` with no exclusions and a
constant random source (the first attempt returns the 3-cycle). -/
theorem makeAssignments_valid_witness :
    ["A", "B", "C"].Nodup ∧
    (∀ p ∈ ["A", "B", "C"], ∃ q,
      lookup [("A", "B"), ("B", "C"), ("C", "A")] p = some q ∧
      q ∈ ["A", "B", "C"] ∧ q ≠ p ∧ q ∉ (fun _ => ([] : List String)) p) ∧
    (["A", "B", "C"].map (recvOf [("A", "B"), ("B", "C"), ("C", "A")])).Perm
      ["A", "B", "C"] :=
  makeAssignments_valid ["A", "B", "C"] (fun _ => []) (fun _ _ => 0)
    [("A", "B"), ("B", "C"), ("C", "A")] (by decide)

/-! ## The repair pass on fully validated candidates -/

theorem validatePair_eq_true {g rv : String} {excl : ExclMap} :
    validatePair g rv excl = true ↔ (rv ≠ g ∧ rv ∉ excl g) := by
  unfold validatePair
  by_cases h : g = rv
  · simp [h]
  · simp [h, not_or, fun hh : rv = g => h hh.symm]

theorem fixOuterGo_noswap {excl : ExclMap} {names : List String} {map : Mapping}
    (hmap : ∀ k v, lookup map k = some v → validatePair k v excl = true) :
    ∀ is : List Nat, fixOuterGo excl names map is = some map := by
  intro is
  induction is with
  | nil => rfl
  | cons i rest ih =>
    simp only [fixOuterGo]
    rcases hl : lookup map (names.getD i "") with _ | rv <;> simp only [hl]
    · exact ih
    · have hv := validatePair_eq_true.mp (hmap _ _ hl)
      have hb1 : isBanned excl (names.getD i "") rv = false := by
        unfold isBanned
        simp only [decide_eq_false_iff_not, not_or]
        exact ⟨hv.1, hv.2⟩
      have hb2 : decide (names.getD i "" = rv) = false := by
        simp only [decide_eq_false_iff_not]
        exact fun hh => hv.1 hh.symm
      rw [hb1, hb2]
      simpa using ih

theorem fixExclusions_allpass {map : Mapping} {names : List String} {excl : ExclMap}
    (hmap : ∀ k v, lookup map k = some v → validatePair k v excl = true) :
    fixExclusions map names excl =
      if names.all (fun nm =>
          match lookup map nm with
          | some v => !(decide (v = "")) && !(decide (v = nm))
          | none => false) then some map
      else none := by
  unfold fixExclusions
  rw [fixOuterGo_noswap hmap]

theorem validateAssignments_gate {m : Mapping} {names : List String} {excl : ExclMap}
    (h : validateAssignments m names excl = true) :
    names.all (fun nm =>
      match lookup m nm with
      | some v => !(decide (v = "")) && !(decide (v = nm))
      | none => false) = true := by
  obtain ⟨hpair, _⟩ := validateAssignments_iff.mp h
  rw [List.all_eq_true]
  intro nm hnm
  obtain ⟨rv, hrv, hne, _, hself, hban⟩ := hpair nm hnm
  push_neg at hban
  simp [hrv, hne, hban.1]

theorem attemptOnce_eq_noRepair (names : List String) (excl : ExclMap) (ra : Nat → Nat) :
    attemptOnce names excl ra = attemptOnceNR names excl ra := by
  unfold attemptOnce attemptOnceI attemptOnceNR
  rcases hb : buildMapping excl (names.zip (candidate names ra)) [] with _ | m
  · rfl
  · have hmap : ∀ k v, lookup m k = some v → validatePair k v excl = true := by
      refine buildMapping_lookup_valid hb ?_
      intro k v hk
      exact absurd hk (by simp [lookup])
    dsimp only
    rw [fixExclusions_allpass hmap]
    by_cases hgate : names.all (fun nm =>
        match lookup m nm with
        | some v => !(decide (v = "")) && !(decide (v = nm))
        | none => false) = true
    · rw [if_pos hgate]
    · rw [if_neg hgate]
      have hva : validateAssignments m names excl = false := by
        cases hv : validateAssignments m names excl
        · rfl
        · exact absurd (validateAssignments_gate hv) hgate
      simp [hva]

theorem masGo_eq_noRepair (names : List String) (excl : ExclMap) (r : Nat → Nat → Nat) :
    ∀ fuel attempt, masGo names excl r attempt fuel = masGoNR names excl r attempt fuel := by
  intro fuel
  induction fuel with
  | zero => intro attempt; rfl
  | succ f ih =>
    intro attempt
    simp only [masGo, masGoNR, attemptOnce_eq_noRepair]
    rcases attemptOnceNR names excl (r attempt) with _ | m
    · exact ih (attempt + 1)
    · rfl

/-- Claim C9 counterexample: the candidate mapping produced for the roster
`["", "A"]` passes `validatePair` on every pairing, so the repair pass is
invoked on it, yet `fixExclusions` returns `false` (the final truthiness
check rejects the empty-string recipient) — refuting "on every such mapping
fixExclusions ... returns true". -/
theorem fixExclusions_allpass_returns_false :
    (∀ p ∈ [("", "A"), ("A", "")], validatePair p.1 p.2 (fun _ => []) = true) ∧
    buildMapping (fun _ => []) (["", "A"].zip (candidate ["", "A"] (fun _ => 0))) [] =
      some [("", "A"), ("A", "")] ∧
    fixExclusions [("", "A"), ("A", "")] ["", "A"] (fun _ => []) = none := by
  refine ⟨by decide, ?_, by decide⟩
  have hc : candidate ["", "A"] (fun _ => 0) = ["A", ""] := by decide
  rw [hc]
  decide

/-- Claim C9 (amended): the repair pass is invoked only on candidate
mappings whose every pairing passes `validatePair`; on such a mapping it
performs no swap and leaves the mapping unchanged, returning `true` exactly
when every participant's recipient is a nonempty string distinct from the
participant (which the final validation demands anyway) — hence
`makeAssignments` computes the same result as the algorithm with the repair
pass removed. -/
theorem repair_pass_redundant :
    (∀ (names : List String) (excl : ExclMap) (r : Nat → Nat → Nat),
      makeAssignments names excl r = makeAssignmentsNoRepair names excl r) ∧
    (∀ (map : Mapping) (names : List String) (excl : ExclMap),
      (∀ k v, lookup map k = some v → validatePair k v excl = true) →
      fixExclusions map names excl =
        if names.all (fun nm =>
            match lookup map nm with
            | some v => !(decide (v = "")) && !(decide (v = nm))
            | none => false) then some map
        else none) := by
  constructor
  · intro names excl r
    exact masGo_eq_noRepair names excl r 1000 0
  · intro map names excl hmap
    exact fixExclusions_allpass hmap

/-- Witness for the amended claim C9: the equivalence at a concrete input,
and the repair-pass evaluation on the all-validated mapping of the
`["", "A"]` roster, whose hypothesis is discharged by computation. -/
theorem repair_pass_redundant_witness :
    makeAssignments ["A", "B", "C"] (fun _ => []) (fun _ _ => 0) =
      makeAssignmentsNoRepair ["A", "B", "C"] (fun _ => []) (fun _ _ => 0) ∧
    fixExclusions [("", "A"), ("A", "")] ["", "A"] (fun _ => []) =
      (if (["", "A"].all (fun nm =>
          match lookup [("", "A"), ("A", "")] nm with
          | some v => !(decide (v = "")) && !(decide (v = nm))
          | none => false)) then some [("", "A"), ("A", "")]
       else none) :=
  ⟨repair_pass_redundant.1 ["A", "B", "C"] (fun _ => []) (fun _ _ => 0),
   repair_pass_redundant.2 [("", "A"), ("A", "")] ["", "A"] (fun _ => [])
     (by
       intro k v hk
       have hm := lookup_some_mem hk
       simp only [List.mem_cons, List.mem_singleton, Prod.mk.injEq,
         List.not_mem_nil, or_false] at hm
       rcases hm with ⟨hk1, hv1⟩ | ⟨hk1, hv1⟩ <;> subst hk1 <;> subst hv1 <;> decide)⟩

/-! ## The shuffle and the fixed-point-elimination pass -/

theorem listSwap_length (a : List String) (i j : Nat) :
    (listSwap a i j).length = a.length := by
  simp [listSwap]

theorem swap_head_perm :
    ∀ (t : List String) (m : Nat) (x : String), m < t.length →
      ((t.getD m "") :: t.set m x).Perm (x :: t) := by
  intro t
  induction t with
  | nil => intro m x hm; simp at hm
  | cons y t' ih =>
    intro m x hm
    cases m with
    | zero =>
      simp only [List.getD_cons_zero, List.set_cons_zero]
      exact List.Perm.swap x y t'
    | succ m' =>
      simp only [List.getD_cons_succ, List.set_cons_succ]
      have h1 : (t'.getD m' "" :: y :: t'.set m' x).Perm (y :: t'.getD m' "" :: t'.set m' x) :=
        List.Perm.swap y (t'.getD m' "") (t'.set m' x)
      have h2 : (y :: t'.getD m' "" :: t'.set m' x).Perm (y :: x :: t') :=
        (ih m' x (by simpa using hm)).cons y
      have h3 : (y :: x :: t').Perm (x :: y :: t') := List.Perm.swap x y t'
      exact h1.trans (h2.trans h3)

theorem listSwap_perm :
    ∀ (a : List String) (i j : Nat), i < a.length → j < a.length →
      (listSwap a i j).Perm a := by
  intro a
  induction a with
  | nil => intro i j hi _; simp at hi
  | cons x t ih =>
    intro i j hi hj
    cases i with
    | zero =>
      cases j with
      | zero => simp [listSwap]
      | succ j' =>
        simp only [listSwap, List.getD_cons_succ, List.getD_cons_zero,
          List.set_cons_zero, List.set_cons_succ]
        exact swap_head_perm t j' x (by simpa using hj)
    | succ i' =>
      cases j with
      | zero =>
        simp only [listSwap, List.getD_cons_succ, List.getD_cons_zero,
          List.set_cons_succ, List.set_cons_zero]
        exact swap_head_perm t i' x (by simpa using hi)
      | succ j' =>
        simp only [listSwap, List.getD_cons_succ, List.set_cons_succ]
        exact (ih i' j' (by simpa using hi) (by simpa using hj)).cons x

theorem shuffleGo_perm (r : Nat → Nat) :
    ∀ (k : Nat) (arr : List String), k < arr.length → (shuffleGo r k arr).Perm arr := by
  intro k
  induction k with
  | zero => intro arr _; exact List.Perm.refl arr
  | succ kk ih =>
    intro arr hk
    have hj : r (kk + 1) % (kk + 2) < arr.length := by
      have := Nat.mod_lt (r (kk + 1)) (y := kk + 2) (by omega)
      omega
    have hswap := listSwap_perm arr (kk + 1) (r (kk + 1) % (kk + 2)) hk hj
    have hlen := listSwap_length arr (kk + 1) (r (kk + 1) % (kk + 2))
    have hrec := ih (listSwap arr (kk + 1) (r (kk + 1) % (kk + 2))) (by omega)
    exact hrec.trans hswap

theorem shuffle_perm (r : Nat → Nat) (arr : List String) : (shuffle r arr).Perm arr := by
  cases arr with
  | nil => exact List.Perm.refl _
  | cons x t =>
    unfold shuffle
    exact shuffleGo_perm r _ _ (by simp)

theorem listSwap_getD_other {a : List String} {i j k : Nat} (hki : k ≠ i) (hkj : k ≠ j) :
    (listSwap a i j).getD k "" = a.getD k "" := by
  simp [listSwap, List.getD_eq_getElem?_getD, List.getElem?_set_ne (Ne.symm hkj),
    List.getElem?_set_ne (Ne.symm hki)]

theorem listSwap_getD_fst {a : List String} {i j : Nat} (hij : i ≠ j) (hi : i < a.length) :
    (listSwap a i j).getD i "" = a.getD j "" := by
  simp [listSwap, List.getD_eq_getElem?_getD, List.getElem?_set_ne (Ne.symm hij),
    List.getElem?_set_eq_of_lt _ hi]

theorem listSwap_getD_snd {a : List String} {i j : Nat} (hj : j < a.length) :
    (listSwap a i j).getD j "" = a.getD i "" := by
  unfold listSwap
  rw [List.getD_eq_getElem?_getD, List.getElem?_set_eq_of_lt _ (by simpa using hj)]
  rfl

/-- The fixed-point-elimination pass of `makeAssignments` turns any
permutation of a duplicate-free roster of at least two names into a
derangement of it. -/
theorem fixAll_spec (names : List String) (hnd : names.Nodup) (hn : 2 ≤ names.length)
    (s : List String) (hp : s.Perm names) :
    (fixAll names s).Perm names ∧
    ∀ k, k < names.length → (fixAll names s).getD k "" ≠ names.getD k "" := by
  have inv : ∀ m, m ≤ names.length - 1 →
      ((List.range m).foldl (fixStep names) s).Perm names ∧
      ∀ k, k < m → ((List.range m).foldl (fixStep names) s).getD k "" ≠ names.getD k "" := by
    intro m
    induction m with
    | zero => intro _; exact ⟨hp, fun k hk => absurd hk (Nat.not_lt_zero k)⟩
    | succ mm ih =>
      intro hm
      obtain ⟨ihp, ihk⟩ := ih (Nat.le_of_succ_le hm)
      have hrange : List.range (mm + 1) = List.range mm ++ [mm] := by
        exact List.range_succ mm
      rw [hrange, List.foldl_append, List.foldl_cons, List.foldl_nil]
      set t := (List.range mm).foldl (fixStep names) s with ht
      have htlen : t.length = names.length := ihp.length_eq
      have htnd : t.Nodup := ihp.nodup_iff.mpr hnd
      have hmlt : mm < names.length - 1 := by omega
      unfold fixStep
      by_cases hfix : t.getD mm "" = names.getD mm ""
      · rw [if_pos hfix, if_neg (show ¬(mm = names.length - 1) by omega)]
        have hi : mm < t.length := by omega
        have hj : mm + 1 < t.length := by omega
        refine ⟨(listSwap_perm t mm (mm + 1) hi hj).trans ihp, ?_⟩
        intro k hk
        rcases Nat.lt_succ_iff_lt_or_eq.mp hk with hk' | hk'
        · rw [listSwap_getD_other (by omega) (by omega)]
          exact ihk k hk'
        · subst hk'
          rw [listSwap_getD_fst (by omega) hi, ← hfix,
            List.getD_eq_getElem t "" hj, List.getD_eq_getElem t "" hi]
          intro he
          have := (List.Nodup.getElem_inj_iff htnd).mp he
          omega
      · rw [if_neg hfix]
        refine ⟨ihp, ?_⟩
        intro k hk
        rcases Nat.lt_succ_iff_lt_or_eq.mp hk with hk' | hk'
        · exact ihk k hk'
        · subst hk'; exact hfix
  obtain ⟨tp, tk⟩ := inv (names.length - 1) (Nat.le_refl _)
  set t := (List.range (names.length - 1)).foldl (fixStep names) s with ht
  have hfold : fixAll names s = fixStep names t (names.length - 1) := by
    unfold fixAll
    conv_lhs => rw [show names.length = (names.length - 1) + 1 by omega]
    rw [List.range_succ, List.foldl_append, List.foldl_cons, List.foldl_nil]
  rw [hfold]
  have htlen : t.length = names.length := tp.length_eq
  have htnd : t.Nodup := tp.nodup_iff.mpr hnd
  unfold fixStep
  by_cases hfix : t.getD (names.length - 1) "" = names.getD (names.length - 1) ""
  · rw [if_pos hfix, if_pos rfl]
    have hi : names.length - 1 < t.length := by omega
    have h0 : 0 < t.length := by omega
    refine ⟨(listSwap_perm t (names.length - 1) 0 hi h0).trans tp, ?_⟩
    intro k hk
    by_cases hk0 : k = 0
    · subst hk0
      rw [listSwap_getD_snd h0, hfix,
        List.getD_eq_getElem names "" (by omega), List.getD_eq_getElem names "" (by omega)]
      intro he
      have := (List.Nodup.getElem_inj_iff hnd).mp he
      omega
    · by_cases hklast : k = names.length - 1
      · subst hklast
        rw [listSwap_getD_fst (by omega) hi, ← hfix,
          List.getD_eq_getElem t "" h0, List.getD_eq_getElem t "" hi]
        intro he
        have := (List.Nodup.getElem_inj_iff htnd).mp he
        omega
      · rw [listSwap_getD_other hklast hk0]
        exact tk k (by omega)
  · rw [if_neg hfix]
    refine ⟨tp, ?_⟩
    intro k hk
    by_cases hklast : k = names.length - 1
    · subst hklast; exact hfix
    · exact tk k (by omega)

/-! ## The candidate mapping as an association list -/

theorem zip_lookup_eq :
    ∀ (names d : List String), names.Nodup → names.length ≤ d.length →
      ∀ i, i < names.length →
        lookup (names.zip d) (names.getD i "") = some (d.getD i "") := by
  intro names
  induction names with
  | nil => intro d _ _ i hi; simp at hi
  | cons g gs ih =>
    intro d hnd hlen i hi
    cases d with
    | nil => simp at hlen
    | cons rv ds =>
      cases i with
      | zero => simp [lookup]
      | succ i' =>
        have hi' : i' < gs.length := by simpa using hi
        have hne : gs.getD i' "" ≠ g := by
          have hmem : gs.getD i' "" ∈ gs := by
            rw [List.getD_eq_getElem gs "" hi']
            exact List.getElem_mem hi'
          intro he
          rw [he] at hmem
          exact (List.nodup_cons.mp hnd).1 hmem
        simp only [List.zip_cons_cons, lookup, List.getD_cons_succ, if_neg hne]
        exact ih ds (List.nodup_cons.mp hnd).2 (by simpa using hlen) i' hi'

theorem zip_map_recvOf :
    ∀ (names d : List String), names.Nodup → d.length = names.length →
      names.map (recvOf (names.zip d)) = d := by
  intro names
  induction names with
  | nil =>
    intro d _ hlen
    have hd0 : d = [] := List.length_eq_zero.mp (by simpa using hlen)
    subst hd0
    rfl
  | cons g gs ih =>
    intro d hnd hlen
    cases d with
    | nil => simp at hlen
    | cons rv ds =>
      have hg : recvOf ((g, rv) :: gs.zip ds) g = rv := by simp [recvOf, lookup]
      have hcongr : gs.map (recvOf ((g, rv) :: gs.zip ds)) = gs.map (recvOf (gs.zip ds)) := by
        apply List.map_congr_left
        intro x hx
        have hne : x ≠ g := fun he => (List.nodup_cons.mp hnd).1 (he ▸ hx)
        simp [recvOf, lookup, hne]
      simp only [List.zip_cons_cons, List.map_cons, hg, hcongr]
      rw [ih ds (List.nodup_cons.mp hnd).2 (by simpa using hlen)]

theorem lookup_append {α : Type} :
    ∀ (a b : List (String × α)) (k : String),
      lookup (a ++ b) k =
        match lookup a k with
        | some v => some v
        | none => lookup b k := by
  intro a b k
  induction a with
  | nil => rfl
  | cons p rest ih =>
    obtain ⟨k', v'⟩ := p
    by_cases hk : k = k'
    · simp [lookup, hk]
    · simp only [List.cons_append, lookup, if_neg hk]
      exact ih

theorem foldl_setKey_fresh :
    ∀ (ps : List (String × String)) (acc : Mapping),
      (∀ p ∈ ps, lookup acc p.1 = none) → (ps.map Prod.fst).Nodup →
      ps.foldl (fun mp p => setKey mp p.1 p.2) acc = acc ++ ps := by
  intro ps
  induction ps with
  | nil => intro acc _ _; simp
  | cons p rest ih =>
    intro acc hfresh hnd
    obtain ⟨g, rv⟩ := p
    simp only [List.foldl_cons]
    rw [setKey_append_of_lookup_none acc g rv (hfresh (g, rv) (by simp))]
    rw [ih (acc ++ [(g, rv)]) ?_ (by simpa using hnd.of_cons)]
    · simp
    · intro q hq
      rw [lookup_append]
      rw [hfresh q (by simp [hq])]
      have hqg : q.1 ≠ g := by
        intro he
        have : g ∈ rest.map Prod.fst := by
          rw [← he]
          exact List.mem_map_of_mem Prod.fst hq
        simp only [List.map_cons, List.nodup_cons] at hnd
        exact hnd.1 this
      simp [lookup, hqg]

theorem buildMapping_eq {excl : ExclMap} :
    ∀ (ps : List (String × String)) (acc m : Mapping),
      buildMapping excl ps acc = some m →
      m = ps.foldl (fun mp p => setKey mp p.1 p.2) acc := by
  intro ps
  induction ps with
  | nil =>
    intro acc m h
    simp only [buildMapping, Option.some.injEq] at h
    simp [h.symm]
  | cons p rest ih =>
    intro acc m h
    obtain ⟨g, rv⟩ := p
    simp only [buildMapping] at h
    by_cases hv : validatePair g rv excl = true
    · rw [if_pos hv] at h
      simpa using ih _ _ h
    · rw [if_neg hv] at h
      exact Option.noConfusion h

/-! ## Success with no exclusions -/

theorem attemptOnce_no_exclusions (names : List String) (ra : Nat → Nat)
    (hnd : names.Nodup) (hn : 2 ≤ names.length) (hns : "" ∉ names) :
    attemptOnce names (fun _ => []) ra = some (names.zip (candidate names ra)) := by
  obtain ⟨hperm, hderang⟩ :=
    fixAll_spec names hnd hn (shuffle ra names) (shuffle_perm ra names)
  set d := candidate names ra with hd
  have hdperm : d.Perm names := hperm
  have hderang' : ∀ k, k < names.length → d.getD k "" ≠ names.getD k "" := hderang
  have hlen : d.length = names.length := hdperm.length_eq
  have hpairs : ∀ p ∈ names.zip d, validatePair p.1 p.2 (fun _ => []) = true := by
    intro p hp
    obtain ⟨i, hiz, hpi⟩ := List.getElem_of_mem hp
    have hizl : i < names.length := by
      rw [List.length_zip] at hiz
      omega
    have hizd : i < d.length := by omega
    rw [List.getElem_zip] at hpi
    rw [validatePair_eq_true, ← hpi]
    constructor
    · have h2 := hderang' i hizl
      rw [List.getD_eq_getElem d "" hizd, List.getD_eq_getElem names "" hizl] at h2
      simpa using h2
    · simp
  have hkeys : ((names.zip d).map Prod.fst).Nodup := by
    rw [List.map_fst_zip names d (by omega)]
    exact hnd
  have hbm : buildMapping (fun _ => []) (names.zip d) [] = some (names.zip d) := by
    have hsome : (buildMapping (fun _ => []) (names.zip d) []).isSome = true :=
      buildMapping_isSome_iff.mpr hpairs
    rcases hmm : buildMapping (fun _ => []) (names.zip d) [] with _ | mm
    · rw [hmm] at hsome; exact absurd hsome (by simp)
    · have heq := buildMapping_eq _ _ _ hmm
      rw [foldl_setKey_fresh _ [] (fun p _ => rfl) hkeys] at heq
      rw [heq]
      simp
  have hva : validateAssignments (names.zip d) names (fun _ => []) = true := by
    rw [validateAssignments_iff]
    constructor
    · intro g hg
      obtain ⟨i, hi, hgi⟩ := List.getElem_of_mem hg
      have hgd : names.getD i "" = g := by
        rw [List.getD_eq_getElem names "" hi, hgi]
      have hlook := zip_lookup_eq names d hnd (by omega) i hi
      rw [hgd] at hlook
      have hdmem : d.getD i "" ∈ names := by
        refine hdperm.subset ?_
        rw [List.getD_eq_getElem d "" (by omega)]
        exact List.getElem_mem (by omega)
      have hself : d.getD i "" ≠ g := by
        rw [← hgd]
        exact hderang i hi
      refine ⟨d.getD i "", hlook, ?_, hdmem, fun he => hself he.symm, ?_⟩
      · intro he
        rw [he] at hdmem
        exact hns hdmem
      · intro hor
        rcases hor with he | he
        · exact hself he
        · simp at he
    · rw [zip_map_recvOf names d hnd hlen]
      exact hdperm.nodup_iff.mpr hnd
  rw [attemptOnce_eq_noRepair]
  unfold attemptOnceNR
  rw [← hd, hbm]
  simp [hva]

/-- Claim C6 counterexample: `["", "A"]` is a roster of two unique
participants with no exclusions, yet the generator fails: the empty-string
participant is always assigned as somebody's recipient, and both the repair
gate and the validator treat the empty string as a missing value
(JavaScript falsiness of `""`), so every attempt is rejected. -/
theorem makeAssignments_empty_string_roster_fails :
    (["", "A"] : List String).Nodup ∧ 2 ≤ (["", "A"] : List String).length ∧
    makeAssignments ["", "A"] (fun _ => []) (fun _ _ => 0) = none := by
  refine ⟨by decide, by decide, ?_⟩
  unfold makeAssignments
  rw [masGo_eq_none_iff]
  intro b _ _
  show attemptOnce ["", "A"] (fun _ => []) (fun _ => 0) = none
  decide

/-- Claim C6 (amended): for every roster of at least two unique nonempty
participant names and the empty exclusion map, the generator succeeds on
its very first attempt, whatever the random source: the shuffled candidate
is repaired into a derangement by the adjacent-swap pass, and full
validation accepts it. -/
theorem makeAssignments_no_exclusions_succeeds (names : List String)
    (r : Nat → Nat → Nat) (hnd : names.Nodup) (hn : 2 ≤ names.length)
    (hns : "" ∉ names) :
    ∃ m, makeAssignments names (fun _ => []) r = some m := by
  have hm := attemptOnce_no_exclusions names (r 0) hnd hn hns
  rcases hma : makeAssignments names (fun _ => []) r with _ | m'
  · exfalso
    unfold makeAssignments at hma
    rw [masGo_eq_none_iff] at hma
    have := hma 0 (by omega) (by omega)
    rw [hm] at this
    exact Option.noConfusion this
  · exact ⟨m', rfl⟩

/-- Witness for the amended claim C6 at the roster `[A, B, C]`. -/
theorem makeAssignments_no_exclusions_succeeds_witness :
    ∃ m, makeAssignments ["A", "B", "C"] (fun _ => []) (fun _ _ => 0) = some m :=
  makeAssignments_no_exclusions_succeeds ["A", "B", "C"] (fun _ _ => 0)
    (by decide) (by decide) (by decide)

end SecretSanta
